import Mathlib

/-!
Shallow embedding of `src/src/lib.rs` (crate `unrolled-rs`, an unrolled
linked list `Unrolled<T>` backed by a `DList<Page<T>>`).

Modelling conventions:
* `usize` is modelled as `Nat`.  No operation in scope can overflow `usize`
  on real inputs (lengths only grow by one per push), so no explicit
  `% 2^64` is carried.  The one place the source relies on wrap-around is
  noted at `Unrolled.remove` below.
* Rust panics (`.unwrap()` on `None`, out-of-bounds slice indexing,
  `split_at_mut` past the end) are modelled by returning `none` from the
  operation; a completed call returns `some`.
* `Vec<T>` is modelled as `List T` (push = append at the tail, pop =
  remove at the tail).  Capacity hints are irrelevant to the values.
* `DList<Page<T>>` is modelled as `List (Page T)`; `iter().nth(i)` is
  `List.get? i`, `push_back` appends, `back_mut` is `getLast?`.
* `page_of` models Rust integer division.  Rust division panics when
  `psize = 0`; the spec (§4.1) requires a positive `page_size` at
  construction, and theorems that quantify over page sizes carry that
  hypothesis so the `Nat` division below agrees with Rust on every
  state they speak about.
-/

namespace UnrolledRs

/-- `struct Page<T> { items: Vec<T> }` -/
structure Page (T : Type) where
  items : List T
deriving DecidableEq

/-- `fn new(psize: usize) -> Page<T>` — allocates an empty item vector
(the capacity hint has no logical content). -/
def Page.new (T : Type) (psize : Nat) : Page T :=
  { items := [] }

/-- `pub struct Unrolled<T> { psize, dlist, len }` -/
structure Unrolled (T : Type) where
  psize : Nat
  dlist : List (Page T)
  len : Nat
deriving DecidableEq

variable {T : Type}

/-- `Unrolled::new(page_size)` — no pages pre-allocated, length zero. -/
def Unrolled.new (T : Type) (page_size : Nat) : Unrolled T :=
  { psize := page_size, dlist := [], len := 0 }

/-- `pub fn page_of(&self, pos) -> usize { pos / self.psize }` -/
def Unrolled.page_of (s : Unrolled T) (pos : Nat) : Nat :=
  pos / s.psize

/-- `fn enough_pages_for(&self, pos) -> bool`:
`match dlist.len() { 0 => false, _ => page_of(pos) <= dlist.len() - 1 }` -/
def Unrolled.enough_pages_for (s : Unrolled T) (pos : Nat) : Bool :=
  match s.dlist.length with
  | 0 => false
  | _ => decide (s.page_of pos ≤ s.dlist.length - 1)

/-- `pub fn push(&mut self, item)`:
appends a fresh page when `!enough_pages_for(len + 1)`, increments `len`,
then pushes `item` onto the back page (`back_mut().unwrap()`, whose panic
is the `none` branch — it is in fact unreachable). -/
def Unrolled.push (s : Unrolled T) (item : T) : Option (Unrolled T) :=
  let s1 := if s.enough_pages_for (s.len + 1) then s
            else { s with dlist := s.dlist ++ [Page.new T s.psize] }
  let s2 : Unrolled T := { s1 with len := s1.len + 1 }
  match s2.dlist.getLast? with
  | none => none
  | some p =>
      some { s2 with dlist := s2.dlist.dropLast ++ [{ items := p.items ++ [item] }] }

/-- `pub fn pop(&mut self) -> Option<T>`:
returns `None` when `len == 0`; otherwise addresses page
`page_of(len)` (`iter_mut().nth(page).unwrap()` — its panic is the outer
`none`), pops that page's item vector, and decrements `len` only when the
vector pop produced a value. -/
def Unrolled.pop (s : Unrolled T) : Option (Option T × Unrolled T) :=
  if s.len = 0 then some (none, s)
  else
    let page := s.page_of s.len
    match s.dlist.get? page with
    | none => none
    | some pg =>
        match pg.items.getLast? with
        | some item =>
            some (some item,
              { s with len := s.len - 1,
                       dlist := s.dlist.set page { items := pg.items.dropLast } })
        | none => some (none, s)

/-- `pub fn len(&self) -> usize` -/
def Unrolled.length (s : Unrolled T) : Nat :=
  s.len

/-- `pub fn get(&self, pos) -> Option<&T>`:
`dlist.iter().nth(page_of(pos)).unwrap().items.get(pos % psize)`.
The outer `none` is the `unwrap` panic on a missing page; the inner
option is the slot lookup. -/
def Unrolled.get (s : Unrolled T) (pos : Nat) : Option (Option T) :=
  match s.dlist.get? (s.page_of pos) with
  | none => none
  | some pg => some (pg.items.get? (pos % s.psize))

/-- `pub fn get_mut(&mut self, pos) -> Option<&mut T>` — same addressing
as `get` (`nth(page).unwrap().items.get_mut(pos % psize)`); we model the
value the returned reference would denote. -/
def Unrolled.get_mut (s : Unrolled T) (pos : Nat) : Option (Option T) :=
  match s.dlist.get? (s.page_of pos) with
  | none => none
  | some pg => some (pg.items.get? (pos % s.psize))

/-- `fn mut_slice_pages(&mut self) -> Vec<&mut [T]>` — the vector of
per-page item slices, in chain order. -/
def Unrolled.mut_slice_pages (s : Unrolled T) : List (List T) :=
  s.dlist.map (fun p => p.items)

/-- `pub fn remove(&mut self, pos) -> Option<T>`.

Source order is `let max_idx = self.len - 1; if pos > max_idx || self.len == 0`.
For `len = 0` the `usize` subtraction wraps to `2^64 - 1` (this crate
predates checked arithmetic), and `pos > 2^64 - 1` is false for every
representable `pos`, so the `len == 0` test is what fires; we test it
first so that `max_idx` needs no wrap-around encoding.  For `len ≥ 1` the
two guards are checked exactly as in the source.

When `pos != max_idx` the source builds `pages = mut_slice_pages()` and:
* cross-page (`page_pos != page_max`): `pages.split_at_mut(page_max)`
  (panics when `page_max > pages.len()`), then
  `item_page.get_mut(item_offset).unwrap()` and
  `last_page.get_mut(last_offset).unwrap()` index the two halves of the
  *vector of page slices* (lengths `page_max` and `pages.len() - page_max`)
  — a panic unless `item_offset < page_max` and
  `last_offset < pages.len() - page_max` — and `swap` then exchanges two
  slice handles inside the temporary vector, leaving every page's
  contents unchanged;
* same page: `pages[page_pos]` (panics when out of bounds),
  `split_at_mut(last_offset)` (panics when `last_offset > items.len()`),
  then the two `get_mut(..).unwrap()` calls panic unless
  `item_offset < last_offset` and `last_offset < items.len()`; on success
  the elements at `item_offset` and `last_offset` of that page are
  swapped.

Finally the (possibly swapped) state is popped. -/
def Unrolled.remove (s : Unrolled T) (pos : Nat) : Option (Option T × Unrolled T) :=
  if s.len = 0 then some (none, s)
  else
    let max_idx := s.len - 1
    if pos > max_idx then some (none, s)
    else
      let step : Option (Unrolled T) :=
        if pos ≠ max_idx then
          let item_offset := pos % s.psize
          let last_offset := max_idx % s.psize
          let page_pos := s.page_of pos
          let page_max := s.page_of max_idx
          let pages := s.mut_slice_pages
          if page_pos ≠ page_max then
            if page_max ≤ pages.length ∧ item_offset < page_max ∧
                last_offset < pages.length - page_max then
              some s
            else none
          else
            match pages.get? page_pos with
            | none => none
            | some pgItems =>
                if item_offset < last_offset ∧ last_offset < pgItems.length then
                  match pgItems.get? item_offset, pgItems.get? last_offset with
                  | some a, some b =>
                      let swapped := (pgItems.set item_offset b).set last_offset a
                      some { s with dlist := s.dlist.set page_pos ⟨swapped⟩ }
                  | _, _ => none
                else none
        else some s
      match step with
      | none => none
      | some s1 => s1.pop

/-! ### Operation traces

Public operations as a datatype, so that reachability ("any prior
push/pop/remove history") and the push/pop accounting of the spec can be
quantified over.  A trace completes only if no step panics. -/

inductive Op (T : Type) where
  | push (v : T)
  | pop
  | remove (pos : Nat)
deriving DecidableEq

/-- Run one public operation; the `Option T` component is the value the
operation returned to the caller (`push` returns nothing). -/
def runOp (s : Unrolled T) : Op T → Option (Option T × Unrolled T)
  | Op.push v => (s.push v).map (fun s' => (none, s'))
  | Op.pop => s.pop
  | Op.remove pos => s.remove pos

/-- Run a trace of public operations, requiring every step to complete. -/
def stepsFrom (s : Unrolled T) : List (Op T) → Option (Unrolled T)
  | [] => some s
  | op :: ops =>
      match runOp s op with
      | none => none
      | some (_, s') => stepsFrom s' ops

/-- Number of pushes an operation contributes. -/
def pushCount : Op T → Nat
  | Op.push _ => 1
  | Op.pop => 0
  | Op.remove _ => 0

/-- Run a trace and additionally count pushes performed and successful
pops, i.e. steps whose underlying vector pop returned a value (a
successful `remove` performs exactly one such pop). -/
def runCount (s : Unrolled T) : List (Op T) → Option (Nat × Nat × Unrolled T)
  | [] => some (0, 0, s)
  | op :: ops =>
      match runOp s op with
      | none => none
      | some (r, s') =>
          match runCount s' ops with
          | none => none
          | some (p, q, t) =>
              some (pushCount op + p, (if r.isSome then 1 else 0) + q, t)

/-- Push a whole list of values, left to right. -/
def pushAll (s : Unrolled T) : List T → Option (Unrolled T)
  | [] => some s
  | v :: vs =>
      match s.push v with
      | none => none
      | some s' => pushAll s' vs

/-- Pop `k` times, collecting the returned values in order. -/
def popN (s : Unrolled T) : Nat → Option (List (Option T) × Unrolled T)
  | 0 => some ([], s)
  | k + 1 =>
      match s.pop with
      | none => none
      | some (r, s') =>
          match popN s' k with
          | none => none
          | some (rs, t) => some (r :: rs, t)

/-- Total number of elements stored across all pages of the chain. -/
def totalCount (s : Unrolled T) : Nat :=
  (s.dlist.map (fun p => p.items.length)).sum

/-- Number of empty pages at the tail of the chain. -/
def trailingEmptyPages (s : Unrolled T) : Nat :=
  (s.dlist.reverse.takeWhile (fun p => p.items.isEmpty)).length

/-! ### Canonical push-only layout

Verification-side characterization of the page contents produced by the
source's `push` (with its `enough_pages_for(len + 1)` test): for page
size `P ≥ 2` the first page receives the first `P - 1` elements and every
later page receives `P` elements.  These definitions are proof devices;
the executable model above is the translation of the source. -/

/-- Split a list into chunks of `P` elements (last chunk possibly
shorter).  Returns `[]` when `P = 0`. -/
def chunkP : Nat → List T → List (List T)
  | _, [] => []
  | 0, _ :: _ => []
  | P + 1, x :: t => (x :: t).take (P + 1) :: chunkP (P + 1) ((x :: t).drop (P + 1))
termination_by _ l => l.length
decreasing_by
  simpa using Nat.lt_succ_of_le (Nat.sub_le t.length P)

/-- The page contents the source's `push` produces after pushing `vs`
onto a fresh container with page size `P ≥ 2`: first chunk of `P - 1`
elements, then chunks of `P`. -/
def pagesOf (P : Nat) : List T → List (List T)
  | [] => []
  | v :: t => (v :: t).take (P - 1) :: chunkP P ((v :: t).drop (P - 1))

/-- State reached from `Unrolled::new(P)` by pushing exactly the list
`vs` (page size `P ≥ 2`): the chain is the canonical layout of `vs`. -/
def PushInv (P : Nat) (vs : List T) (s : Unrolled T) : Prop :=
  s.psize = P ∧ s.len = vs.length ∧ s.dlist = (pagesOf P vs).map Page.mk

/-- State representing the remaining list `vs` during the pop phase:
the canonical layout of `vs` followed by already-emptied trailing pages,
`m` pages in total (pop never releases a page). -/
def PopInv (P m : Nat) (vs : List T) (s : Unrolled T) : Prop :=
  s.psize = P ∧ s.len = vs.length ∧ (pagesOf P vs).length ≤ m ∧
    s.dlist = (pagesOf P vs).map Page.mk ++
      List.replicate (m - (pagesOf P vs).length) (Page.mk [])

/-! ## Theorems -/

/-- Claim C1, evidence of the code bug: on a freshly constructed
container (page size 10, `len() = 0`, so `pos = 0 ≥ len()`), `get(0)`
does not return absent — the chain lookup
`dlist.iter().nth(page_of(0)).unwrap()` panics (the model's `none`)
because the page chain is empty. -/
theorem C1_get_panics_on_empty_chain :
    Unrolled.get (Unrolled.new Nat 10) 0 = none := rfl

/-- Claim C2, evidence of the code bug: with page size 10, pushing the
ten values `0..9` leaves `len() = 10`, yet `get(9)` and `get_mut(9)`
complete and return absent instead of the tenth pushed value `9` —
`push`'s `enough_pages_for(len + 1)` test is off by one, so element 9 is
physically stored in page 1 slot 0 while `get` looks in page 0 slot 9. -/
theorem C2_get_misses_in_range_position :
    (pushAll (Unrolled.new Nat 10) (List.range 10)).map
      (fun s => (s.len, s.get 9, s.get_mut 9)) = some (10, some none, some none) := rfl

/-- Claim C3, evidence of the code bug: with page size 10, pushing the
30 values `0..29` allocates 4 pages (9 + 10 + 10 + 1 elements), not 3,
and the subsequent `remove(0)` panics (the model's `none`): the
cross-page branch indexes the two halves of the vector of page slices
with the element offsets 0 and 9, and `get_mut(9)` on the 2-page tail
half is out of bounds. -/
theorem C3_four_pages_and_remove_panics :
    (pushAll (Unrolled.new Nat 10) (List.range 30)).map
      (fun s => (s.dlist.length, s.remove 0)) = some (4, none) := rfl

/-- Claim C4, evidence of the code bug: with page size 10, pushing the
15 values `0..14` and then calling `remove(12)` returns `Some 14` (the
last element) instead of the element 12 at logical position 12: the
swap addresses page `12 / 10 = 1` with offsets `12 % 10 = 2` and
`14 % 10 = 4`, which hold the values 11 and 13 under the actual skewed
layout, and the final `pop` then removes 14. -/
theorem C4_remove_returns_wrong_element :
    ((pushAll (Unrolled.new Nat 10) (List.range 15)).bind
      (fun s => s.remove 12)).map (fun r => r.1) = some (some 14) := rfl

/-- Claim C6, evidence of the code bug: with page size 10, after ten
pushes (a pure-push history) the chain holds two pages with 9 and 1
elements, so a page that is not the last is not at full capacity. -/
theorem C6_nonlast_page_not_full :
    (pushAll (Unrolled.new Nat 10) (List.range 10)).map
      (fun s => s.dlist.map (fun p => p.items.length)) = some [9, 1] := rfl

/-- Claim C5, counterexample to "for every page size": with page size 1,
pushing one value and then popping does not return the value — the pop
addresses page `page_of(len) = 1 / 1 = 1`, one past the only existing
page, and `nth(1).unwrap()` panics (the model's `none`). -/
theorem C5_cex_page_size_one_pop_panics :
    ((Unrolled.new Nat 1).push 5).bind Unrolled.pop = none := rfl

/-- Claim C9, counterexample: with page size 2, the completed operation
sequence push 1, push 2, pop, pop ends at rest with both pages of the
chain empty — two trailing empty pages, contradicting "at most one". -/
theorem C9_cex_two_trailing_empty_pages :
    (stepsFrom (Unrolled.new Nat 2) [Op.push 1, Op.push 2, Op.pop, Op.pop]).map
      trailingEmptyPages = some 2 := rfl

/-- Claim C8: on any container with `len() = 0` (whatever its pages or
page size) and any position, `pop()` and `remove(pos)` both complete
without a fatal error, return absent, and leave the container exactly
unchanged (same length 0, same page chain). -/
theorem C8_empty_pop_remove_absent {T : Type} (s : Unrolled T) (pos : Nat)
    (h : s.len = 0) :
    s.pop = some (none, s) ∧ s.remove pos = some (none, s) := by
  constructor
  · simp [Unrolled.pop, h]
  · simp [Unrolled.remove, h]

/-- Witness for C8 at a concrete empty container. -/
theorem C8_witness :
    (Unrolled.new Nat 10).len = 0 ∧
      (Unrolled.new Nat 10).pop = some (none, Unrolled.new Nat 10) ∧
      (Unrolled.new Nat 10).remove 7 = some (none, Unrolled.new Nat 10) :=
  ⟨rfl, C8_empty_pop_remove_absent (Unrolled.new Nat 10) 7 rfl⟩

/-- A list with a known last element is that element appended to some
prefix. -/
theorem exists_concat_of_getLastEq {α : Type} :
    ∀ (l : List α) (a : α), l.getLast? = some a → ∃ l', l = l' ++ [a] := by
  intro l
  induction l with
  | nil => intro a h; simp at h
  | cons x t ih =>
      intro a h
      cases t with
      | nil =>
          simp at h
          exact ⟨[], by simp [h]⟩
      | cons y u =>
          have h' : (y :: u).getLast? = some a := by
            simpa [List.getLast?_cons_cons] using h
          obtain ⟨l', hl⟩ := ih a h'
          exact ⟨x :: l', by simp [hl]⟩

/-- `push` always completes, puts its item at the end of the last page,
and otherwise changes at most the page it pushed into plus possibly one
fresh page: the resulting chain is some prefix plus a final page ending
in the pushed item, with `len` incremented. -/
theorem push_shape {T : Type} (s : Unrolled T) (v : T) (s' : Unrolled T)
    (h : s.push v = some s') :
    ∃ (d : List (Page T)) (p : Page T),
      (d = s.dlist ∨ d = s.dlist ++ [Page.new T s.psize]) ∧
      d.getLast? = some p ∧
      s' = { psize := s.psize, dlist := d.dropLast ++ [⟨p.items ++ [v]⟩],
             len := s.len + 1 } := by
  simp only [Unrolled.push] at h
  split at h
  · exact absurd h (by simp)
  next p heq =>
      refine ⟨_, p, ?_, heq, ?_⟩
      · split <;> simp
      · cases h
        split <;> rfl

/-- Claim C9, the amended half that does hold: after every completed
`push`, the last page of the chain is nonempty, so no trailing page —
in particular at most one — is empty at rest. -/
theorem C9_push_no_trailing_empty {T : Type} (s : Unrolled T) (v : T)
    (s' : Unrolled T) (h : s.push v = some s') : trailingEmptyPages s' = 0 := by
  obtain ⟨d, p, _, _, rfl⟩ := push_shape s v s' h
  simp [trailingEmptyPages]

/-- Witness for C9's amended theorem at a concrete push. -/
theorem C9_witness :
    trailingEmptyPages (⟨10, [⟨[5]⟩], 1⟩ : Unrolled Nat) = 0 :=
  C9_push_no_trailing_empty (Unrolled.new Nat 10) 5 _ rfl

/-- Exhaustive description of a completed `pop`: either it returned
nothing and left the state untouched, or it removed the last element of
the page addressed by `page_of(len)` and decremented `len`. -/
theorem pop_cases {T : Type} (s : Unrolled T) (r : Option T) (s' : Unrolled T)
    (h : s.pop = some (r, s')) :
    (r = none ∧ s' = s) ∨
    ∃ (pg : Page T) (item : T),
      s.len ≠ 0 ∧ s.dlist.get? (s.page_of s.len) = some pg ∧
      pg.items.getLast? = some item ∧ r = some item ∧
      s' = { s with len := s.len - 1,
                    dlist := s.dlist.set (s.page_of s.len) ⟨pg.items.dropLast⟩ } := by
  simp only [Unrolled.pop] at h
  split at h
  · simp only [Option.some.injEq, Prod.mk.injEq] at h
    exact Or.inl ⟨h.1.symm, h.2.symm⟩
  next hlen =>
    split at h
    · exact absurd h (by simp)
    next pg hpg =>
      split at h
      next item hitem =>
          simp only [Option.some.injEq, Prod.mk.injEq] at h
          exact Or.inr ⟨pg, item, hlen, hpg, hitem, h.1.symm, h.2.symm⟩
      next hnone =>
          simp only [Option.some.injEq, Prod.mk.injEq] at h
          exact Or.inl ⟨h.1.symm, h.2.symm⟩

/-- Replacing a list entry by one with the same image under `f` leaves
the mapped list unchanged. -/
theorem map_set_of_eq {α β : Type} (f : α → β) :
    ∀ (l : List α) (i : Nat) (x : α), (l.get? i).map f = some (f x) →
      (l.set i x).map f = l.map f := by
  intro l
  induction l with
  | nil => intro i x _; simp
  | cons a t ih =>
      intro i x h
      cases i with
      | zero =>
          simp only [List.get?_cons_zero, Option.map_some', Option.some.injEq] at h
          simp [h]
      | succ j =>
          simp only [List.set_cons_succ, List.map_cons, List.cons.injEq]
          exact ⟨trivial, ih j x (by simpa using h)⟩

/-- Exhaustive description of a completed `remove`: either an
out-of-range call that returned nothing and left the state untouched, or
the final `pop` of a state `s1` that has the same page structure as `s`
(same page count and per-page element counts — the swap step moves
elements around but never between pages, and the broken cross-page
branch changes nothing at all). -/
theorem remove_cases {T : Type} (s : Unrolled T) (pos : Nat) (r : Option T)
    (s' : Unrolled T) (h : s.remove pos = some (r, s')) :
    (r = none ∧ s' = s) ∨
    ∃ s1 : Unrolled T, s1.psize = s.psize ∧ s1.len = s.len ∧
      s1.dlist.map (fun p => p.items.length) = s.dlist.map (fun p => p.items.length) ∧
      s1.pop = some (r, s') := by
  simp only [Unrolled.remove] at h
  split at h
  · simp only [Option.some.injEq, Prod.mk.injEq] at h
    exact Or.inl ⟨h.1.symm, h.2.symm⟩
  split at h
  · simp only [Option.some.injEq, Prod.mk.injEq] at h
    exact Or.inl ⟨h.1.symm, h.2.symm⟩
  · split at h
    · exact absurd h (by simp)
    next s1 hs1 =>
      have hfacts : s1.psize = s.psize ∧ s1.len = s.len ∧
          s1.dlist.map (fun p => p.items.length)
            = s.dlist.map (fun p => p.items.length) := by
        split at hs1
        · split at hs1
          · split at hs1
            · cases hs1
              exact ⟨rfl, rfl, rfl⟩
            · exact absurd hs1 (by simp)
          · split at hs1
            · exact absurd hs1 (by simp)
            next pgItems hget =>
              split at hs1
              · split at hs1
                next a b ha hb =>
                    cases hs1
                    refine ⟨rfl, rfl, ?_⟩
                    simp only [Unrolled.mut_slice_pages, List.get?_map] at hget
                    cases hdg : s.dlist.get? (s.page_of pos) with
                    | none => rw [hdg] at hget; simp at hget
                    | some pg =>
                        rw [hdg] at hget
                        simp only [Option.map_some', Option.some.injEq] at hget
                        refine map_set_of_eq _ s.dlist (s.page_of pos) _ ?_
                        rw [hdg]
                        simp [hget]
                · exact absurd hs1 (by simp)
              · exact absurd hs1 (by simp)
        · cases hs1
          exact ⟨rfl, rfl, rfl⟩
      exact Or.inr ⟨s1, hfacts.1, hfacts.2.1, hfacts.2.2, h⟩

/-- A completed `push` leaves the page count unchanged or grows it by
exactly one. -/
theorem push_dlist_length {T : Type} (s : Unrolled T) (v : T) (s' : Unrolled T)
    (h : s.push v = some s') :
    s'.dlist.length = s.dlist.length ∨ s'.dlist.length = s.dlist.length + 1 := by
  obtain ⟨d, p, hd, hlast, rfl⟩ := push_shape s v s' h
  have hne : d ≠ [] := by
    intro h0
    rw [h0] at hlast
    simp at hlast
  have hlen : (d.dropLast ++ [(⟨p.items ++ [v]⟩ : Page T)]).length = d.length := by
    have := List.length_pos.mpr hne
    simp [List.length_dropLast]
    omega
  rcases hd with rfl | rfl
  · exact Or.inl hlen
  · refine Or.inr ?_
    rw [hlen]
    simp

/-- A completed `pop` never changes the page count. -/
theorem pop_dlist_length {T : Type} (s : Unrolled T) (r : Option T)
    (s' : Unrolled T) (h : s.pop = some (r, s')) :
    s'.dlist.length = s.dlist.length := by
  rcases pop_cases s r s' h with ⟨_, rfl⟩ | ⟨pg, item, _, _, _, _, rfl⟩
  · rfl
  · simp

/-- A completed `remove` never changes the page count. -/
theorem remove_dlist_length {T : Type} (s : Unrolled T) (pos : Nat) (r : Option T)
    (s' : Unrolled T) (h : s.remove pos = some (r, s')) :
    s'.dlist.length = s.dlist.length := by
  rcases remove_cases s pos r s' h with ⟨_, rfl⟩ | ⟨s1, _, _, hmap, hpop⟩
  · rfl
  · have h1 := pop_dlist_length s1 r s' hpop
    have h2 : s1.dlist.length = s.dlist.length := by
      simpa using congrArg List.length hmap
    omega

/-- Any single completed public operation keeps the page count
non-decreasing. -/
theorem runOp_dlist_mono {T : Type} (s : Unrolled T) (op : Op T) (r : Option T)
    (s' : Unrolled T) (h : runOp s op = some (r, s')) :
    s.dlist.length ≤ s'.dlist.length := by
  cases op with
  | push v =>
      simp only [runOp, Option.map_eq_some'] at h
      obtain ⟨s0, hp, he⟩ := h
      obtain ⟨-, rfl⟩ : none = r ∧ s0 = s' := by
        simpa [Prod.ext_iff] using he
      rcases push_dlist_length s v s0 hp with h1 | h1 <;> omega
  | pop =>
      have := pop_dlist_length s r s' h
      omega
  | remove pos =>
      have := remove_dlist_length s pos r s' h
      omega

/-- Page count is monotone along any completed trace. -/
theorem stepsFrom_dlist_mono {T : Type} :
    ∀ (ops : List (Op T)) (s t : Unrolled T), stepsFrom s ops = some t →
      s.dlist.length ≤ t.dlist.length := by
  intro ops
  induction ops with
  | nil =>
      intro s t h
      cases h
      exact Nat.le_refl _
  | cons op rest ih =>
      intro s t h
      simp only [stepsFrom] at h
      split at h
      · exact absurd h (by simp)
      next r s1 heq =>
        exact Nat.le_trans (runOp_dlist_mono s op r s1 heq) (ih s1 t h)

/-- Claim C10: no public operation ever removes a page from the chain —
a completed `pop` or `remove` leaves the page count unchanged, a
completed `push` leaves it unchanged or grows it by exactly one, and
hence the page count is monotone non-decreasing along every completed
sequence of public operations. -/
theorem C10_page_count_monotone {T : Type} :
    (∀ (s : Unrolled T) (v : T) (s' : Unrolled T), s.push v = some s' →
        s'.dlist.length = s.dlist.length ∨ s'.dlist.length = s.dlist.length + 1) ∧
    (∀ (s : Unrolled T) (r : Option T) (s' : Unrolled T), s.pop = some (r, s') →
        s'.dlist.length = s.dlist.length) ∧
    (∀ (s : Unrolled T) (pos : Nat) (r : Option T) (s' : Unrolled T),
        s.remove pos = some (r, s') → s'.dlist.length = s.dlist.length) ∧
    (∀ (ops : List (Op T)) (s t : Unrolled T), stepsFrom s ops = some t →
        s.dlist.length ≤ t.dlist.length) :=
  ⟨push_dlist_length, pop_dlist_length, remove_dlist_length, stepsFrom_dlist_mono⟩

/-- Witness for C10 on concrete operations: one push on a fresh
container (page count 0 to 1) and the completed trace push-then-pop
(page count stays 1 ≥ 0). -/
theorem C10_witness :
    ((⟨10, [⟨[5]⟩], 1⟩ : Unrolled Nat).dlist.length = (Unrolled.new Nat 10).dlist.length ∨
      (⟨10, [⟨[5]⟩], 1⟩ : Unrolled Nat).dlist.length = (Unrolled.new Nat 10).dlist.length + 1) ∧
    (Unrolled.new Nat 10).dlist.length ≤ (⟨10, [⟨[]⟩], 0⟩ : Unrolled Nat).dlist.length :=
  ⟨C10_page_count_monotone.1 (Unrolled.new Nat 10) 5 _ (by rfl),
   C10_page_count_monotone.2.2.2 [Op.push 5, Op.pop] (Unrolled.new Nat 10) _ (by rfl)⟩

/-- Removing the last element of the `i`-th page lowers the total
element count by exactly one. -/
theorem totalSum_set_dropLast {T : Type} :
    ∀ (d : List (Page T)) (i : Nat) (pg : Page T), d.get? i = some pg →
      pg.items ≠ [] →
      ((d.set i ⟨pg.items.dropLast⟩).map (fun p => p.items.length)).sum + 1
        = (d.map (fun p => p.items.length)).sum := by
  intro d
  induction d with
  | nil => intro i pg h _; simp at h
  | cons a t ih =>
      intro i pg h hne
      cases i with
      | zero =>
          simp only [List.get?_cons_zero, Option.some.injEq] at h
          subst h
          have := List.length_pos.mpr hne
          simp only [List.set_cons_zero, List.map_cons, List.sum_cons,
            List.length_dropLast]
          omega
      | succ j =>
          simp only [List.set_cons_succ, List.map_cons, List.sum_cons]
          have := ih j pg (by simpa using h) hne
          omega

/-- A completed `push` increments both `len` and the total stored
element count by exactly one. -/
theorem push_len_total {T : Type} (s : Unrolled T) (v : T) (s' : Unrolled T)
    (h : s.push v = some s') :
    s'.len = s.len + 1 ∧ totalCount s' = totalCount s + 1 := by
  obtain ⟨d, p, hd, hlast, rfl⟩ := push_shape s v s' h
  refine ⟨rfl, ?_⟩
  rcases hd with rfl | rfl
  · obtain ⟨l', hl⟩ := exists_concat_of_getLastEq _ p hlast
    rw [totalCount, totalCount, hl]
    simp [List.dropLast_concat]
    omega
  · have hp : p = Page.new T s.psize := by
      have := List.getLast?_concat (l := s.dlist) (a := Page.new T s.psize)
      rw [this] at hlast
      exact (Option.some.inj hlast).symm
    subst hp
    simp [totalCount, List.dropLast_concat, Page.new]

/-- A completed `pop` decrements `len` and the total stored element
count exactly when it returned a value, and changes nothing otherwise. -/
theorem pop_len_total {T : Type} (s : Unrolled T) (r : Option T) (s' : Unrolled T)
    (h : s.pop = some (r, s')) :
    s'.len + (if r.isSome then 1 else 0) = s.len ∧
      totalCount s' + (if r.isSome then 1 else 0) = totalCount s := by
  rcases pop_cases s r s' h with ⟨rfl, rfl⟩ | ⟨pg, item, hlen, hget, hlast, rfl, rfl⟩
  · simp
  · have hne : pg.items ≠ [] := by
      intro h0
      rw [h0] at hlast
      simp at hlast
    constructor
    · simp only [Option.isSome_some, if_pos]
      omega
    · simp only [Option.isSome_some, if_pos]
      exact totalSum_set_dropLast s.dlist (s.page_of s.len) pg hget hne

/-- A completed `remove` decrements `len` and the total stored element
count exactly when it returned a value. -/
theorem remove_len_total {T : Type} (s : Unrolled T) (pos : Nat) (r : Option T)
    (s' : Unrolled T) (h : s.remove pos = some (r, s')) :
    s'.len + (if r.isSome then 1 else 0) = s.len ∧
      totalCount s' + (if r.isSome then 1 else 0) = totalCount s := by
  rcases remove_cases s pos r s' h with ⟨rfl, rfl⟩ | ⟨s1, _, hlen, hmap, hpop⟩
  · simp
  · have h1 := pop_len_total s1 r s' hpop
    have h2 : totalCount s1 = totalCount s := by
      simpa [totalCount] using congrArg List.sum hmap
    constructor <;> omega

/-- A completed public operation changes `len` and the total stored
element count by the number of pushes it performed minus the number of
successful pops it performed. -/
theorem runOp_len_total {T : Type} (s : Unrolled T) (op : Op T) (r : Option T)
    (s' : Unrolled T) (h : runOp s op = some (r, s')) :
    s'.len + (if r.isSome then 1 else 0) = s.len + pushCount op ∧
      totalCount s' + (if r.isSome then 1 else 0) = totalCount s + pushCount op := by
  cases op with
  | push v =>
      simp only [runOp, Option.map_eq_some'] at h
      obtain ⟨s0, hp, he⟩ := h
      obtain ⟨rfl, rfl⟩ : none = r ∧ s0 = s' := by
        simpa [Prod.ext_iff] using he
      have := push_len_total s v s0 hp
      simp only [pushCount, Option.isSome_none, Bool.false_eq_true, if_false]
      omega
  | pop =>
      have := pop_len_total s r s' h
      simpa [pushCount] using this
  | remove pos =>
      have := remove_len_total s pos r s' h
      simpa [pushCount] using this

/-- Along any completed trace, `len` and the total stored element count
both change by (pushes performed) minus (successful pops). -/
theorem runCount_spec {T : Type} :
    ∀ (ops : List (Op T)) (s : Unrolled T) (p q : Nat) (t : Unrolled T),
      runCount s ops = some (p, q, t) →
      t.len + q = s.len + p ∧ totalCount t + q = totalCount s + p := by
  intro ops
  induction ops with
  | nil =>
      intro s p q t h
      simp only [runCount, Option.some.injEq, Prod.mk.injEq] at h
      obtain ⟨rfl, rfl, rfl⟩ := h
      simp
  | cons op rest ih =>
      intro s p q t h
      simp only [runCount] at h
      split at h
      · exact absurd h (by simp)
      next r s1 heq =>
        split at h
        · exact absurd h (by simp)
        next p1 q1 t1 heq2 =>
          simp only [Option.some.injEq, Prod.mk.injEq] at h
          obtain ⟨rfl, rfl, rfl⟩ := h
          have h1 := runOp_len_total s op r s1 heq
          have h2 := ih s1 p1 q1 t1 heq2
          constructor <;> omega

/-- Claim C7: in every state reached from a fresh container (valid page
size) by a completed sequence of push, pop and remove operations, the
stored `len` field equals the sum of the element counts of all pages in
the chain, and `len()` equals the number of pushes performed minus the
number of successful pops — vector pops that returned a value, including
the one a successful `remove` performs. -/
theorem C7_length_accounting {T : Type} (P : Nat) (hP : 0 < P)
    (ops : List (Op T)) (p q : Nat) (t : Unrolled T)
    (h : runCount (Unrolled.new T P) ops = some (p, q, t)) :
    t.len = totalCount t ∧ t.len + q = p := by
  have hspec := runCount_spec ops (Unrolled.new T P) p q t h
  have h0 : (Unrolled.new T P).len = 0 := rfl
  have h1 : totalCount (Unrolled.new T P) = 0 := rfl
  omega

/-- Witness for C7: the trace push 1, push 2, remove 0 (page size 10)
completes with 2 pushes, 1 successful pop, final length 1 and one page
holding one element. -/
theorem C7_witness :
    0 < 10 ∧
      ((⟨10, [⟨[2]⟩], 1⟩ : Unrolled Nat).len
          = totalCount (⟨10, [⟨[2]⟩], 1⟩ : Unrolled Nat) ∧
        (⟨10, [⟨[2]⟩], 1⟩ : Unrolled Nat).len + 1 = 2) :=
  ⟨by decide,
   C7_length_accounting 10 (by decide) [Op.push 1, Op.push 2, Op.remove 0] 2 1 _ (by rfl)⟩

/-! ### Layout lemmas for the push-only phase (page size ≥ 2) -/

theorem chunkP_nil {T : Type} (P : Nat) : chunkP P ([] : List T) = [] := by
  cases P <;> simp [chunkP]

theorem chunkP_cons {T : Type} (P : Nat) (hP : 0 < P) (l : List T) (hl : l ≠ []) :
    chunkP P l = l.take P :: chunkP P (l.drop P) := by
  cases P with
  | zero => omega
  | succ Q =>
      cases l with
      | nil => exact absurd rfl hl
      | cons x t => simp [chunkP]

/-- Number of `P`-chunks of a nonempty list. -/
theorem chunkP_length {T : Type} (P : Nat) (hP : 0 < P) :
    ∀ (n : Nat) (l : List T), l.length ≤ n → l ≠ [] →
      (chunkP P l).length = (l.length - 1) / P + 1 := by
  intro n
  induction n with
  | zero =>
      intro l hl hne
      have := List.length_pos.mpr hne
      omega
  | succ n ih =>
      intro l hl hne
      rw [chunkP_cons P hP l hne]
      by_cases hd : l.drop P = []
      · have hle : l.length ≤ P := by simpa using List.drop_eq_nil_iff.mp hd
        have h0 : (l.length - 1) / P = 0 := by
          apply Nat.div_eq_of_lt
          have := List.length_pos.mpr hne
          omega
        simp [hd, chunkP_nil, h0]
      · have hlt : P < l.length := by
          by_contra hcon
          exact hd (List.drop_eq_nil_iff.mpr (by omega))
        have hdl : (l.drop P).length ≤ n := by
          simp only [List.length_drop]
          omega
        have := ih (l.drop P) hdl hd
        simp only [List.length_cons, this, List.length_drop]
        have harith : (l.length - P - 1) / P + 1 = (l.length - 1) / P := by
          have hsum : (l.length - P - 1) + P = l.length - 1 := by omega
          calc (l.length - P - 1) / P + 1 = ((l.length - P - 1) + P) / P := by
                rw [Nat.add_div_right _ hP]
            _ = (l.length - 1) / P := by rw [hsum]
        omega

theorem chunkP_singleton {T : Type} (P : Nat) (hP : 0 < P) (v : T) :
    chunkP P [v] = [[v]] := by
  rw [chunkP_cons P hP [v] (by simp)]
  have h1 : List.take P [v] = [v] := List.take_of_length_le (by simpa using hP)
  have h2 : List.drop P [v] = ([] : List T) := List.drop_eq_nil_iff.mpr (by simpa using hP)
  rw [h1, h2, chunkP_nil]

/-- Appending one element to the chunked list either starts a fresh
chunk (when the length is a multiple of `P`) or extends the last,
partially filled chunk. -/
theorem chunkP_concat {T : Type} (P : Nat) (hP : 0 < P) :
    ∀ (n : Nat) (l : List T) (v : T), l.length ≤ n →
      (l.length % P = 0 → chunkP P (l ++ [v]) = chunkP P l ++ [[v]]) ∧
      (l.length % P ≠ 0 →
        ∃ A c, chunkP P l = A ++ [c] ∧ c ≠ [] ∧
          chunkP P (l ++ [v]) = A ++ [c ++ [v]]) := by
  intro n
  induction n with
  | zero =>
      intro l v hl
      have : l = [] := List.eq_nil_of_length_eq_zero (by omega)
      subst this
      constructor
      · intro _
        simp only [List.nil_append]
        rw [chunkP_singleton P hP v, chunkP_nil]
        simp
      · intro hmod
        simp at hmod
  | succ n ih =>
      intro l v hl
      cases l with
      | nil =>
          constructor
          · intro _
            simp only [List.nil_append]
            rw [chunkP_singleton P hP v, chunkP_nil]
            simp
          · intro hmod
            simp at hmod
      | cons x t =>
          set l := x :: t with hldef
          have hne : l ≠ [] := by simp [hldef]
          by_cases hlt : l.length < P
          · have htake : l.take P = l := List.take_of_length_le (by omega)
            have hdrop : l.drop P = [] := List.drop_eq_nil_iff.mpr (by omega)
            have htake2 : (l ++ [v]).take P = l ++ [v] := by
              apply List.take_of_length_le
              simp
              omega
            have hdrop2 : (l ++ [v]).drop P = [] := by
              apply List.drop_eq_nil_iff.mpr
              simp
              omega
            constructor
            · intro hmod
              have : l.length % P = l.length := Nat.mod_eq_of_lt hlt
              have hlen0 : l.length = 0 := by omega
              exact absurd hlen0 (by simp [hldef])
            · intro _
              refine ⟨[], l, ?_, hne, ?_⟩
              · rw [chunkP_cons P hP l hne, htake, hdrop, chunkP_nil]
                simp
              · rw [chunkP_cons P hP (l ++ [v]) (by simp), htake2, hdrop2, chunkP_nil]
                simp
          · have hge : P ≤ l.length := by omega
            have htake : (l ++ [v]).take P = l.take P :=
              List.take_append_of_le_length hge
            have hdrop : (l ++ [v]).drop P = l.drop P ++ [v] :=
              List.drop_append_of_le_length hge
            have hmodeq : (l.drop P).length % P = l.length % P := by
              simp only [List.length_drop]
              conv_rhs => rw [show l.length = (l.length - P) + P by omega]
              rw [Nat.add_mod_right]
            have hdlen : (l.drop P).length ≤ n := by
              simp only [List.length_drop]
              have : 0 < l.length := List.length_pos.mpr hne
              omega
            have IH := ih (l.drop P) v hdlen
            constructor
            · intro hmod
              rw [chunkP_cons P hP l hne,
                  chunkP_cons P hP (l ++ [v]) (by simp), htake, hdrop]
              rw [IH.1 (by omega)]
              simp
            · intro hmod
              obtain ⟨A, c, hA, hc, hAv⟩ := IH.2 (by omega)
              refine ⟨l.take P :: A, c, ?_, hc, ?_⟩
              · rw [chunkP_cons P hP l hne, hA]
                simp
              · rw [chunkP_cons P hP (l ++ [v]) (by simp), htake, hdrop, hAv]
                simp

theorem pagesOf_nil {T : Type} (P : Nat) : pagesOf P ([] : List T) = [] := rfl

theorem pagesOf_cons {T : Type} (P : Nat) (v : T) (t : List T) :
    pagesOf P (v :: t) =
      (v :: t).take (P - 1) :: chunkP P ((v :: t).drop (P - 1)) := rfl

/-- Number of pages of the canonical layout of a nonempty list. -/
theorem pagesOf_length {T : Type} (P : Nat) (hP : 2 ≤ P) (vs : List T)
    (hvs : vs ≠ []) : (pagesOf P vs).length = vs.length / P + 1 := by
  obtain ⟨v, t, rfl⟩ : ∃ v t, vs = v :: t := by
    cases vs with
    | nil => exact absurd rfl hvs
    | cons v t => exact ⟨v, t, rfl⟩
  rw [pagesOf_cons]
  set l := v :: t with hldef
  by_cases hd : l.drop (P - 1) = []
  · have hle : l.length ≤ P - 1 := by simpa using List.drop_eq_nil_iff.mp hd
    have : l.length / P = 0 := Nat.div_eq_of_lt (by omega)
    simp [hd, chunkP_nil, this]
  · have hgt : P - 1 < l.length := by
      by_contra hcon
      exact hd (List.drop_eq_nil_iff.mpr (by omega))
    have hlen := chunkP_length P (by omega) (l.drop (P - 1)).length (l.drop (P - 1))
      (Nat.le_refl _) hd
    simp only [List.length_cons, hlen, List.length_drop]
    have harith : (l.length - (P - 1) - 1) / P + 1 = l.length / P := by
      have hsum : (l.length - (P - 1) - 1) + P = l.length := by omega
      calc (l.length - (P - 1) - 1) / P + 1
          = ((l.length - (P - 1) - 1) + P) / P := by
            rw [Nat.add_div_right _ (by omega : 0 < P)]
        _ = l.length / P := by rw [hsum]
    simp only [List.length_cons] at harith ⊢
    omega

theorem pagesOf_eq {T : Type} (P : Nat) (vs : List T) (h : vs ≠ []) :
    pagesOf P vs = vs.take (P - 1) :: chunkP P (vs.drop (P - 1)) := by
  cases vs with
  | nil => exact absurd rfl h
  | cons v t => rfl

/-- Appending to the canonical layout of a nonempty list: a fresh page
exactly when the new length is a multiple of `P`; otherwise the element
lands at the end of the (nonempty) last page. -/
theorem pagesOf_concat_aux {T : Type} (P : Nat) (hP : 2 ≤ P) (l : List T)
    (hne : l ≠ []) (v : T) :
    ((l.length + 1) % P = 0 →
        pagesOf P (l ++ [v]) = pagesOf P l ++ [[v]]) ∧
    ((l.length + 1) % P ≠ 0 →
        ∃ A c, pagesOf P l = A ++ [c] ∧ c ≠ [] ∧
          pagesOf P (l ++ [v]) = A ++ [c ++ [v]]) := by
  have hlpos : 0 < l.length := List.length_pos.mpr hne
  have he1 : pagesOf P l = l.take (P - 1) :: chunkP P (l.drop (P - 1)) :=
    pagesOf_eq P l hne
  have he2 : pagesOf P (l ++ [v]) =
      (l ++ [v]).take (P - 1) :: chunkP P ((l ++ [v]).drop (P - 1)) :=
    pagesOf_eq P _ (by simp)
  by_cases hsmall : l.length < P - 1
  · have htake : l.take (P - 1) = l := List.take_of_length_le (by omega)
    have hdrop : l.drop (P - 1) = [] := List.drop_eq_nil_iff.mpr (by omega)
    have htake2 : (l ++ [v]).take (P - 1) = l ++ [v] :=
      List.take_of_length_le (by simp; omega)
    have hdrop2 : (l ++ [v]).drop (P - 1) = [] :=
      List.drop_eq_nil_iff.mpr (by simp; omega)
    constructor
    · intro hmod
      have hlt : l.length + 1 < P := by omega
      have := Nat.mod_eq_of_lt hlt
      omega
    · intro _
      refine ⟨[], l, ?_, hne, ?_⟩
      · rw [he1, htake, hdrop, chunkP_nil]
        simp
      · rw [he2, htake2, hdrop2, chunkP_nil]
        simp
  · have hge : P - 1 ≤ l.length := by omega
    have htake : (l ++ [v]).take (P - 1) = l.take (P - 1) :=
      List.take_append_of_le_length hge
    have hdrop : (l ++ [v]).drop (P - 1) = l.drop (P - 1) ++ [v] :=
      List.drop_append_of_le_length hge
    have hmodeq : (l.drop (P - 1)).length % P = (l.length + 1) % P := by
      simp only [List.length_drop]
      conv_rhs => rw [show l.length + 1 = (l.length - (P - 1)) + P by omega]
      rw [Nat.add_mod_right]
    have IH := chunkP_concat P (by omega) (l.drop (P - 1)).length
      (l.drop (P - 1)) v (Nat.le_refl _)
    constructor
    · intro hmod
      rw [he1, he2, htake, hdrop, IH.1 (by omega)]
      simp
    · intro hmod
      obtain ⟨A, c, hA, hc, hAv⟩ := IH.2 (by omega)
      refine ⟨l.take (P - 1) :: A, c, ?_, hc, ?_⟩
      · rw [he1, hA]
        simp
      · rw [he2, htake, hdrop, hAv]
        simp

/-- `pagesOf_concat_aux` together with the empty-list case. -/
theorem pagesOf_concat {T : Type} (P : Nat) (hP : 2 ≤ P) (vs : List T) (v : T) :
    ((vs.length + 1) % P = 0 ∨ vs = [] →
        pagesOf P (vs ++ [v]) = pagesOf P vs ++ [[v]]) ∧
    ((vs.length + 1) % P ≠ 0 ∧ vs ≠ [] →
        ∃ A c, pagesOf P vs = A ++ [c] ∧ c ≠ [] ∧
          pagesOf P (vs ++ [v]) = A ++ [c ++ [v]]) := by
  by_cases hvs : vs = []
  · subst hvs
    constructor
    · intro _
      simp only [List.nil_append, pagesOf_nil]
      rw [pagesOf_eq P [v] (by simp)]
      have h1 : List.take (P - 1) [v] = [v] :=
        List.take_of_length_le (by simp; omega)
      have h2 : List.drop (P - 1) [v] = ([] : List T) :=
        List.drop_eq_nil_iff.mpr (by simp; omega)
      rw [h1, h2, chunkP_nil]
    · rintro ⟨-, hne⟩
      exact absurd rfl hne
  · have aux := pagesOf_concat_aux P hP vs hvs v
    constructor
    · intro hmod
      rcases hmod with hmod | hmod
      · exact aux.1 hmod
      · exact absurd hmod hvs
    · intro hmod
      exact aux.2 hmod.1

theorem pagesOf_singleton {T : Type} (P : Nat) (hP : 2 ≤ P) (v : T) :
    pagesOf P [v] = [[v]] := by
  have := (pagesOf_concat P hP [] v).1 (Or.inr rfl)
  simpa [pagesOf_nil] using this

/-- `enough_pages_for` on a nonempty chain is the bounds test of the
source's second match arm. -/
theorem enough_pages_for_eq {T : Type} (s : Unrolled T) (pos : Nat)
    (h : s.dlist.length ≠ 0) :
    s.enough_pages_for pos = decide (s.page_of pos ≤ s.dlist.length - 1) := by
  cases hd : s.dlist.length with
  | zero => exact absurd hd h
  | succ k => simp [Unrolled.enough_pages_for, hd]

/-- One push from a push-only state: the source's off-by-one capacity
test `enough_pages_for(len + 1)` opens a fresh page exactly when the
canonical layout does, and the pushed element lands where the canonical
layout of `vs ++ [v]` says. -/
theorem push_step {T : Type} (P : Nat) (hP : 2 ≤ P) (vs : List T) (s : Unrolled T)
    (h : PushInv P vs s) (v : T) :
    s.push v = some ⟨P, (pagesOf P (vs ++ [v])).map Page.mk, vs.length + 1⟩ := by
  obtain ⟨hps, hlen, hdl⟩ := h
  by_cases hvs : vs = []
  · subst hvs
    have hnil : s.dlist = [] := by rw [hdl, pagesOf_nil]; rfl
    have hlen0 : s.len = 0 := by simpa using hlen
    have henough : s.enough_pages_for 1 = false := by
      simp [Unrolled.enough_pages_for, hnil]
    simp [Unrolled.push, henough, hnil, hlen0, hps, Page.new,
      pagesOf_singleton P hP v]
  · have hnlen : s.dlist.length = vs.length / P + 1 := by
      rw [hdl]
      simp [pagesOf_length P hP vs hvs]
    have hnz : s.dlist.length ≠ 0 := by
      rw [hnlen]
      exact Nat.succ_ne_zero _
    by_cases hmod : (vs.length + 1) % P = 0
    · have hdvd : P ∣ vs.length + 1 := Nat.dvd_iff_mod_eq_zero.mpr hmod
      have hdiv : (vs.length + 1) / P = vs.length / P + 1 := by
        rw [Nat.succ_div]
        simp [hdvd]
      have henough : s.enough_pages_for (s.len + 1) = false := by
        rw [enough_pages_for_eq s _ hnz]
        simp only [decide_eq_false_iff_not, Unrolled.page_of, hps, hlen, hnlen, hdiv]
        generalize vs.length / P = k
        omega
      have hlayout : pagesOf P (vs ++ [v]) = pagesOf P vs ++ [[v]] :=
        (pagesOf_concat P hP vs v).1 (Or.inl hmod)
      have hlast : (s.dlist ++ [Page.new T s.psize]).getLast?
          = some (Page.new T s.psize) := List.getLast?_concat _
      simp only [Unrolled.push, henough, Bool.false_eq_true, if_false, hlast]
      simp [List.dropLast_concat, hps, hlen, hdl, hlayout, Page.new]
    · have hndvd : ¬ P ∣ vs.length + 1 := by
        intro hdvd
        exact hmod (Nat.dvd_iff_mod_eq_zero.mp hdvd)
      have hdiv : (vs.length + 1) / P = vs.length / P := by
        rw [Nat.succ_div]
        simp [hndvd]
      have henough : s.enough_pages_for (s.len + 1) = true := by
        rw [enough_pages_for_eq s _ hnz]
        simp only [decide_eq_true_eq, Unrolled.page_of, hps, hlen, hnlen, hdiv]
        generalize vs.length / P = k
        omega
      obtain ⟨A, c, hA, hc, hAv⟩ := (pagesOf_concat P hP vs v).2 ⟨hmod, hvs⟩
      have hdlA : s.dlist = A.map Page.mk ++ [Page.mk c] := by
        rw [hdl, hA]
        simp
      have hlast : s.dlist.getLast? = some (Page.mk c) := by
        rw [hdlA]
        exact List.getLast?_concat _
      simp only [Unrolled.push, henough, if_true, hlast]
      simp [hdlA, List.dropLast_concat, hps, hlen, hAv]

/-- A fresh container satisfies the push-phase invariant for the empty
list. -/
theorem new_PushInv {T : Type} (P : Nat) : PushInv P [] (Unrolled.new T P) :=
  ⟨rfl, rfl, rfl⟩

/-- Pushing a whole list from a push-only state completes and yields the
push-only state of the extended list. -/
theorem pushAll_spec {T : Type} (P : Nat) (hP : 2 ≤ P) :
    ∀ (vs ws : List T) (s : Unrolled T), PushInv P ws s →
      ∃ t, pushAll s vs = some t ∧ PushInv P (ws ++ vs) t := by
  intro vs
  induction vs with
  | nil =>
      intro ws s h
      exact ⟨s, rfl, by simpa using h⟩
  | cons v rest ih =>
      intro ws s h
      have hp := push_step P hP ws s h v
      have hinv : PushInv P (ws ++ [v])
          ⟨P, (pagesOf P (ws ++ [v])).map Page.mk, ws.length + 1⟩ :=
        ⟨rfl, by simp, rfl⟩
      obtain ⟨t, ht, hinvt⟩ := ih (ws ++ [v]) _ hinv
      refine ⟨t, ?_, by simpa using hinvt⟩
      simp only [pushAll, hp]
      exact ht

/-- The push-only state is a pop-phase state with no emptied pages. -/
theorem PushInv_to_PopInv {T : Type} (P : Nat) (vs : List T) (s : Unrolled T)
    (h : PushInv P vs s) : PopInv P (pagesOf P vs).length vs s := by
  obtain ⟨h1, h2, h3⟩ := h
  exact ⟨h1, h2, Nat.le_refl _, by simp [h3]⟩

theorem set_append_len {α : Type} :
    ∀ (A B : List α) (x : α), (A ++ B).set A.length x = A ++ B.set 0 x := by
  intro A
  induction A with
  | nil => intro B x; simp
  | cons a t ih =>
      intro B x
      simp only [List.cons_append, List.length_cons, List.set_cons_succ, ih]

theorem get?_append_len {α : Type} (A B : List α) :
    (A ++ B).get? A.length = B.get? 0 := by
  rw [List.get?_append_right (Nat.le_refl _)]
  simp

theorem get?_append_len' {α : Type} (A B : List α) (i : Nat) (h : i = A.length) :
    (A ++ B).get? i = B.get? 0 := by
  subst h
  exact get?_append_len A B

theorem set_append_len' {α : Type} (A B : List α) (x : α) (i : Nat)
    (h : i = A.length) : (A ++ B).set i x = A ++ B.set 0 x := by
  subst h
  exact set_append_len A B x

/-- One pop from a pop-phase state representing `ys ++ [v]`: the source's
`page_of(len)` addressing finds the page physically holding the last
element `v`, removes it, and leaves a pop-phase state representing `ys`
with the page count unchanged. -/
theorem pop_step {T : Type} (P m : Nat) (hP : 2 ≤ P) (ys : List T) (v : T)
    (s : Unrolled T) (h : PopInv P m (ys ++ [v]) s) :
    s.pop = some (some v,
      ⟨P, (pagesOf P ys).map Page.mk ++
            List.replicate (m - (pagesOf P ys).length) (Page.mk []), ys.length⟩) ∧
    PopInv P m ys
      ⟨P, (pagesOf P ys).map Page.mk ++
            List.replicate (m - (pagesOf P ys).length) (Page.mk []), ys.length⟩ := by
  obtain ⟨hps, hlen, hm, hdl⟩ := h
  have hlen' : s.len = ys.length + 1 := by simpa using hlen
  have hnz : ¬ s.len = 0 := by omega
  have hpage : s.page_of s.len = (ys.length + 1) / P := by
    simp [Unrolled.page_of, hps, hlen']
  have hcnt : (pagesOf P (ys ++ [v])).length = (ys.length + 1) / P + 1 := by
    rw [pagesOf_length P hP _ (by simp)]
    simp
  by_cases hys : ys = []
  · -- the whole list is the single element v, on page 0
    subst hys
    have hone : pagesOf P ([] ++ [v]) = [[v]] := by
      simpa using pagesOf_singleton P hP v
    have hmge : 1 ≤ m := by
      rw [hone] at hm
      simpa using hm
    have hdl' : s.dlist = Page.mk [v] :: List.replicate (m - 1) (Page.mk []) := by
      rw [hdl, hone]
      simp
    have hdiv0 : (([] : List T).length + 1) / P = 0 := Nat.div_eq_of_lt (by simp; omega)
    have hget : s.dlist.get? (s.page_of s.len) = some (Page.mk [v]) := by
      rw [hpage, hdiv0, hdl']
      rfl
    have hset : s.dlist.set (s.page_of s.len) (Page.mk []) =
        List.replicate m (Page.mk []) := by
      rw [hpage, hdiv0, hdl', List.set_cons_zero]
      conv_rhs => rw [show m = (m - 1) + 1 by omega]
      rw [List.replicate_succ]
    constructor
    · simp only [Unrolled.pop, if_neg hnz, hget]
      simp only [show ([v] : List T).getLast? = some v from rfl,
        show ([v] : List T).dropLast = [] from rfl]
      simp only [Option.some.injEq, Prod.mk.injEq, Unrolled.mk.injEq]
      refine ⟨trivial, hps, ?_, by omega⟩
      rw [hset]
      simp [pagesOf_nil]
    · exact ⟨rfl, rfl, by simp [pagesOf_nil], rfl⟩
  · rcases Nat.eq_zero_or_pos ((ys.length + 1) % P) with hmod | hmod
    · -- v sits alone on a freshly opened page
      have hlayout : pagesOf P (ys ++ [v]) = pagesOf P ys ++ [[v]] :=
        (pagesOf_concat P hP ys v).1 (Or.inl hmod)
      have hpageq : (ys.length + 1) / P = (pagesOf P ys).length := by
        rw [hlayout] at hcnt
        simp at hcnt
        omega
      have hmge : (pagesOf P ys).length + 1 ≤ m := by
        rw [hlayout] at hm
        simpa using hm
      have hdl' : s.dlist = (pagesOf P ys).map Page.mk ++
          (Page.mk [v] ::
            List.replicate (m - ((pagesOf P ys).length + 1)) (Page.mk [])) := by
        rw [hdl, hlayout]
        simp
      have hget : s.dlist.get? (s.page_of s.len) = some (Page.mk [v]) := by
        rw [hpage, hpageq, hdl', get?_append_len' _ _ _ (by simp)]
        rfl
      have hset : s.dlist.set (s.page_of s.len) (Page.mk []) =
          (pagesOf P ys).map Page.mk ++
            List.replicate (m - (pagesOf P ys).length) (Page.mk []) := by
        rw [hpage, hpageq, hdl', set_append_len' _ _ _ _ (by simp),
          List.set_cons_zero]
        congr 1
        conv_rhs => rw [show m - (pagesOf P ys).length
          = (m - ((pagesOf P ys).length + 1)) + 1 by omega]
        rw [List.replicate_succ]
      constructor
      · simp only [Unrolled.pop, if_neg hnz, hget]
        simp only [show ([v] : List T).getLast? = some v from rfl,
          show ([v] : List T).dropLast = [] from rfl]
        simp only [Option.some.injEq, Prod.mk.injEq, Unrolled.mk.injEq]
        exact ⟨trivial, hps, hset, by omega⟩
      · exact ⟨rfl, rfl, by omega, rfl⟩
    · -- v extends the nonempty last page of the layout of ys
      obtain ⟨A, c, hA, hc, hAv⟩ :=
        (pagesOf_concat P hP ys v).2 ⟨by omega, hys⟩
      have hpageA : (ys.length + 1) / P = A.length := by
        rw [hAv] at hcnt
        simp at hcnt
        omega
      have hmge : A.length + 1 ≤ m := by
        rw [hAv] at hm
        simpa using hm
      have hlenA : (pagesOf P ys).length = A.length + 1 := by
        rw [hA]
        simp
      have hdl' : s.dlist = A.map Page.mk ++
          (Page.mk (c ++ [v]) ::
            List.replicate (m - (A.length + 1)) (Page.mk [])) := by
        rw [hdl, hAv]
        simp
      have hget : s.dlist.get? (s.page_of s.len) = some (Page.mk (c ++ [v])) := by
        rw [hpage, hpageA, hdl', get?_append_len' _ _ _ (by simp)]
        rfl
      have hset : s.dlist.set (s.page_of s.len) (Page.mk c) =
          (pagesOf P ys).map Page.mk ++
            List.replicate (m - (pagesOf P ys).length) (Page.mk []) := by
        rw [hpage, hpageA, hdl', set_append_len' _ _ _ _ (by simp),
          List.set_cons_zero, hA]
        simp
      constructor
      · simp only [Unrolled.pop, if_neg hnz, hget]
        simp only [List.getLast?_concat, List.dropLast_concat]
        simp only [Option.some.injEq, Prod.mk.injEq, Unrolled.mk.injEq]
        exact ⟨trivial, hps, hset, by omega⟩
      · refine ⟨rfl, rfl, ?_, rfl⟩
        rw [hlenA]
        omega

theorem exists_concat_of_ne_nil {α : Type} :
    ∀ (l : List α), l ≠ [] → ∃ ys a, l = ys ++ [a] := by
  intro l
  induction l with
  | nil => intro h; exact absurd rfl h
  | cons x t ih =>
      intro _
      cases ht : t with
      | nil => exact ⟨[], x, rfl⟩
      | cons y u =>
          obtain ⟨ys, a, hya⟩ := ih (by simp [ht])
          exact ⟨x :: ys, a, by rw [← ht, hya]; rfl⟩

/-- Popping `k` times from a pop-phase state returns the last `k`
elements in reverse order and leaves the pop-phase state of the
remaining prefix, with the length shrinking accordingly. -/
theorem popN_spec {T : Type} (P m : Nat) (hP : 2 ≤ P) :
    ∀ (k : Nat) (vs : List T) (s : Unrolled T), k ≤ vs.length →
      PopInv P m vs s →
      ∃ u, popN s k = some (((vs.drop (vs.length - k)).reverse).map some, u) ∧
        PopInv P m (vs.take (vs.length - k)) u := by
  intro k
  induction k with
  | zero =>
      intro vs s hk h
      refine ⟨s, ?_, ?_⟩
      · simp [popN]
      · simpa using h
  | succ k ih =>
      intro vs s hk h
      have hne : vs ≠ [] := by
        intro h0
        rw [h0] at hk
        simp at hk
      obtain ⟨ys, v, rfl⟩ := exists_concat_of_ne_nil vs hne
      have hstep := pop_step P m hP ys v s h
      have hk' : k ≤ ys.length := by
        simp at hk
        omega
      obtain ⟨u, hu, hinv⟩ := ih ys _ hk' hstep.2
      have hL : (ys ++ [v]).length - (k + 1) = ys.length - k := by
        simp
      have hdropEq : (ys ++ [v]).drop (ys.length - k)
          = ys.drop (ys.length - k) ++ [v] :=
        List.drop_append_of_le_length (by omega)
      have htakeEq : (ys ++ [v]).take (ys.length - k)
          = ys.take (ys.length - k) :=
        List.take_append_of_le_length (by omega)
      refine ⟨u, ?_, ?_⟩
      · simp only [popN, hstep.1, hu]
        rw [hL, hdropEq]
        simp
      · rw [hL, htakeEq]
        exact hinv

/-- Claim C5, amended to page sizes at least 2 (for page size 1 the very
first pop panics — see the counterexample theorem): pushing values `vs`
in order onto a fresh container and then popping `vs.length` times
returns exactly the pushed values in reverse order, with `len()`
decreasing from `vs.length` to `0` step by step, and one further pop on
the now-empty container completes, reports the empty case, and leaves
the container unchanged with length `0`. -/
theorem C5_push_pop_symmetry {T : Type} (P : Nat) (hP : 2 ≤ P) (vs : List T) :
    ∃ s, pushAll (Unrolled.new T P) vs = some s ∧
      (∀ k, k ≤ vs.length →
        ∃ rs u, popN s k = some (rs, u) ∧ u.len = vs.length - k) ∧
      ∃ t, popN s vs.length = some (vs.reverse.map some, t) ∧
        t.len = 0 ∧ t.pop = some (none, t) := by
  obtain ⟨s, hpush, hinv⟩ :=
    pushAll_spec P hP vs [] (Unrolled.new T P) (new_PushInv P)
  have hinv' : PopInv P (pagesOf P vs).length vs s := by
    apply PushInv_to_PopInv
    simpa using hinv
  refine ⟨s, hpush, ?_, ?_⟩
  · intro k hk
    obtain ⟨u, hu, hinvu⟩ := popN_spec P _ hP k vs s hk hinv'
    refine ⟨_, u, hu, ?_⟩
    rw [hinvu.2.1]
    simp [List.length_take]
  · obtain ⟨t, ht, hinvt⟩ := popN_spec P _ hP vs.length vs s (Nat.le_refl _) hinv'
    have hlen0 : t.len = 0 := by
      rw [hinvt.2.1]
      simp
    refine ⟨t, ?_, hlen0, ?_⟩
    · simpa using ht
    · simp [Unrolled.pop, hlen0]

/-- Witness for C5's amended theorem at page size 2 with three values. -/
theorem C5_witness :
    2 ≤ 2 ∧
      ∃ s, pushAll (Unrolled.new Nat 2) [10, 20, 30] = some s ∧
        (∀ k, k ≤ ([10, 20, 30] : List Nat).length →
          ∃ rs u, popN s k = some (rs, u) ∧
            u.len = ([10, 20, 30] : List Nat).length - k) ∧
        ∃ t, popN s ([10, 20, 30] : List Nat).length
            = some (([10, 20, 30] : List Nat).reverse.map some, t) ∧
          t.len = 0 ∧ t.pop = some (none, t) :=
  ⟨by decide, C5_push_pop_symmetry 2 (by decide) [10, 20, 30]⟩

end UnrolledRs
